import Mathlib

/-!
Verification of the contentfulcommander commander-client library.

Shallow embedding of the Go sources under `src/commanderclient` (and the
hyperlink-processing file): publishing status derivation, the rich-text tree
engine (`richtext_internal.go`), field access and mutation on entry entities
(`entities.go`), the translation orchestration (`translate.go`), hyperlink
rewriting (`ProcessHyperlinks`), collection filtering (`collection.go`), the
entry loader's shrink-and-retry policy (`loader.go`) and the migration
executor's update semantics (`executor.go`).
-/

namespace CFC

/-! ### Publishing status (types.go, entities.go) -/

/-- Publishing status constant `StatusDraft` from types.go. -/
def StatusDraft : String := "draft"

/-- Publishing status constant `StatusPublished` from types.go. -/
def StatusPublished : String := "published"

/-- Publishing status constant `StatusChanged` from types.go. -/
def StatusChanged : String := "changed"

/-- The system metadata fields that publishing status is derived from
(`contentful.Sys.Version` and `contentful.Sys.PublishedVersion`, both Go `int`). -/
structure Sys where
  version : Int
  publishedVersion : Int
deriving Repr, DecidableEq

/-- `EntryEntity.IsPublished` / `AssetEntity.IsPublished` (entities.go):
`Sys.Version - Sys.PublishedVersion == 1`. -/
def Sys.IsPublished (s : Sys) : Bool :=
  s.version - s.publishedVersion == 1

/-- `EntryEntity.GetPublishingStatus` / `AssetEntity.GetPublishingStatus`
(entities.go): `PublishedVersion == 0` gives draft, else `IsPublished()`
gives published, otherwise changed. -/
def Sys.GetPublishingStatus (s : Sys) : String :=
  if s.publishedVersion == 0 then StatusDraft
  else if s.IsPublished then StatusPublished
  else StatusChanged


/-- Decimal digit characters of `n`, most significant first (the output of Go's
`%d` verb for a non-negative int). -/
def decChars (n : Nat) : List Char :=
  if _h : n < 10 then [Nat.digitChar n]
  else decChars (n / 10) ++ [Nat.digitChar (n % 10)]
decreasing_by
  exact Nat.div_lt_self (by omega) (by omega)

/-- Go's `%03d` verb: the decimal form of `n`, left-padded with zeros to at
least three characters (richtext_internal.go `nodePathFormat`). -/
def pad3 (n : Nat) : String :=
  String.mk (List.replicate (3 - (decChars n).length) '0' ++ decChars n)

/-- `fmt.Sprintf(nodePathFormat, path, i)`: `path ++ "-" ++ %03d i`. -/
def pathAppend (p : String) (i : Nat) : String := p ++ "-" ++ pad3 i

def decStep (a : Nat) (c : Char) : Nat := 10 * a + (c.toNat - 48)

def decVal (l : List Char) : Nat := l.foldl decStep 0

theorem digitChar_toNat : ∀ d : Nat, d < 10 → (Nat.digitChar d).toNat = 48 + d := by decide

theorem digitChar_ne_dash : ∀ d : Nat, d < 10 → Nat.digitChar d ≠ '-' := by decide

theorem foldl_decChars (n : Nat) : ∀ a : Nat,
    (decChars n).foldl decStep a = a * 10 ^ (decChars n).length + n := by
  induction n using Nat.strong_induction_on with
  | _ n ih =>
    intro a
    rw [decChars]
    by_cases h : n < 10
    · simp only [h, dite_true, List.foldl_cons, List.foldl_nil, List.length_cons,
        List.length_nil, decStep, digitChar_toNat n h]
      ring_nf
      omega
    · have hd : n / 10 < n := Nat.div_lt_self (by omega) (by omega)
      simp only [h, dite_false, List.foldl_append, List.foldl_cons, List.foldl_nil,
        List.length_append, List.length_cons, List.length_nil]
      rw [ih (n / 10) hd]
      simp only [decStep, digitChar_toNat (n % 10) (Nat.mod_lt n (by omega))]
      have : 10 * (a * 10 ^ (decChars (n / 10)).length + n / 10) + (48 + n % 10 - 48)
          = a * 10 ^ ((decChars (n / 10)).length + 1) + (10 * (n / 10) + n % 10) := by
        ring_nf
        omega
      rw [this, Nat.div_add_mod]

theorem decVal_decChars (n : Nat) : decVal (decChars n) = n := by
  simp [decVal, foldl_decChars n 0]

theorem foldl_replicate_zero (k : Nat) : (List.replicate k '0').foldl decStep 0 = 0 := by
  induction k with
  | zero => rfl
  | succ k ih => simpa [List.replicate_succ, decStep] using ih

theorem decVal_pad3 (n : Nat) : decVal (pad3 n).data = n := by
  show ((List.replicate (3 - (decChars n).length) '0' ++ decChars n).foldl decStep 0) = n
  rw [List.foldl_append, foldl_replicate_zero, ← decVal, decVal_decChars]

theorem pad3_data_inj {a b : Nat} (h : (pad3 a).data = (pad3 b).data) : a = b := by
  have := decVal_pad3 a
  rw [h, decVal_pad3 b] at this
  omega

theorem dash_not_mem_decChars (n : Nat) : '-' ∉ decChars n := by
  induction n using Nat.strong_induction_on with
  | _ n ih =>
    by_cases h : n < 10
    · rw [decChars]
      simp only [h, dite_true, List.mem_singleton]
      exact fun he => digitChar_ne_dash n h he.symm
    · rw [decChars]
      simp only [h, dite_false, List.mem_append, List.mem_singleton]
      push_neg
      constructor
      · exact ih (n / 10) (Nat.div_lt_self (by omega) (by omega))
      · exact fun he => digitChar_ne_dash (n % 10) (Nat.mod_lt n (by omega)) he.symm

theorem dash_not_mem_pad3 (n : Nat) : '-' ∉ (pad3 n).data := by
  show '-' ∉ List.replicate (3 - (decChars n).length) '0' ++ decChars n
  simp only [List.mem_append, List.mem_replicate]
  push_neg
  exact ⟨fun _ => by decide, dash_not_mem_decChars n⟩

/-- Character-list encoding of the suffix of a node path below the root:
one `-`-prefixed `%03d` segment per child index. -/
def posTail (is : List Nat) : List Char :=
  match is with
  | [] => []
  | i :: rest => '-' :: ((pad3 i).data ++ posTail rest)

theorem posTail_head (is : List Nat) :
    (posTail is).head? = none ∨ (posTail is).head? = some '-' := by
  cases is with
  | nil => left; rfl
  | cons i rest => right; rfl

theorem dashfree_cancel : ∀ (a : List Char), '-' ∉ a → ∀ (b : List Char), '-' ∉ b →
    ∀ (r r' : List Char), (r.head? = none ∨ r.head? = some '-') →
    (r'.head? = none ∨ r'.head? = some '-') →
    a ++ r = b ++ r' → a = b ∧ r = r' := by
  intro a
  induction a with
  | nil =>
    intro _ b hb r r' hr hr' heq
    cases b with
    | nil => exact ⟨rfl, heq⟩
    | cons c bs =>
      exfalso
      simp only [List.nil_append, List.cons_append] at heq
      subst heq
      rcases hr with h | h
      · simp at h
      · simp only [List.head?_cons, Option.some.injEq] at h
        exact hb (h ▸ List.mem_cons_self c bs)
  | cons c as ih =>
    intro ha b hb r r' hr hr' heq
    cases b with
    | nil =>
      exfalso
      simp only [List.cons_append, List.nil_append] at heq
      rcases hr' with h | h
      · rw [← heq] at h; simp at h
      · rw [← heq] at h
        simp only [List.head?_cons, Option.some.injEq] at h
        exact ha (h ▸ List.mem_cons_self c as)
    | cons d bs =>
      simp only [List.cons_append, List.cons.injEq] at heq
      obtain ⟨hcd, htail⟩ := heq
      have has : '-' ∉ as := fun hm => ha (List.mem_cons_of_mem c hm)
      have hbs : '-' ∉ bs := fun hm => hb (List.mem_cons_of_mem d hm)
      obtain ⟨h1, h2⟩ := ih has bs hbs r r' hr hr' htail
      exact ⟨by rw [hcd, h1], h2⟩

theorem posTail_inj : ∀ is js : List Nat, posTail is = posTail js → is = js := by
  intro is
  induction is with
  | nil =>
    intro js h
    cases js with
    | nil => rfl
    | cons j rest => simp [posTail] at h
  | cons i rest ih =>
    intro js h
    cases js with
    | nil => simp [posTail] at h
    | cons j rest' =>
      simp only [posTail, List.cons.injEq, true_and] at h
      obtain ⟨hseg, htail⟩ := dashfree_cancel (pad3 i).data (dash_not_mem_pad3 i)
        (pad3 j).data (dash_not_mem_pad3 j) (posTail rest) (posTail rest')
        (posTail_head rest) (posTail_head rest') h
      rw [pad3_data_inj hseg, ih rest' htail]

/-- The string path of the node reached from path `p` by the child-index
sequence `is` (successive `fmt.Sprintf(nodePathFormat, ·, ·)` applications). -/
def pathOfPos (p : String) (is : List Nat) : String := is.foldl pathAppend p

theorem pathOfPos_data (is : List Nat) : ∀ p : String,
    (pathOfPos p is).data = p.data ++ posTail is := by
  induction is with
  | nil => intro p; simp [pathOfPos, posTail]
  | cons i rest ih =>
    intro p
    show (pathOfPos (pathAppend p i) rest).data = _
    rw [ih (pathAppend p i)]
    show (p ++ "-" ++ pad3 i).data ++ posTail rest = _
    simp [posTail]

theorem pathOfPos_inj (p : String) {is js : List Nat}
    (h : pathOfPos p is = pathOfPos p js) : is = js := by
  apply posTail_inj
  have hd : (pathOfPos p is).data = (pathOfPos p js).data := by rw [h]
  rw [pathOfPos_data, pathOfPos_data] at hd
  exact List.append_cancel_left hd

/-! ### Rich-text tree (richtext_internal.go) -/

/-- Node type constant `nodeTypeDocument`. -/
def nodeTypeDocument : String := "document"

/-- Node type constant `nodeTypeText`. -/
def nodeTypeText : String := "text"

/-- Node type constant `nodeTypeHyperlink`. -/
def nodeTypeHyperlink : String := "hyperlink"

/-- Node type constant `nodeTypeEntryHyperlink`. -/
def nodeTypeEntryHyperlink : String := "entry-hyperlink"

/-- Node type constant `nodeTypeAssetHyperlink`. -/
def nodeTypeAssetHyperlink : String := "asset-hyperlink"

/-- A value inside a node's auxiliary `Data` map (`map[string]any`): either a
JSON string (the only shape the code inspects, in `getHyperlinkURI`) or any
other JSON value, kept opaque. -/
inductive DataVal where
  | str (s : String)
  | other (tag : Nat)
deriving Repr, DecidableEq

/-- `RichTextNode` (richtext_internal.go): node type tag, text value, auxiliary
data map, mark list and ordered children. Go's `nil` vs empty distinction for
the `Data` map and `Marks`/`Content` slices is immaterial to the verified
operations, so maps are association lists and slices plain lists. -/
inductive RichTextNode where
  | mk (nodeType : String) (value : String) (data : List (String × DataVal))
       (marks : List String) (content : List RichTextNode)

def RichTextNode.nodeType : RichTextNode → String
  | .mk nt _ _ _ _ => nt

def RichTextNode.value : RichTextNode → String
  | .mk _ v _ _ _ => v

def RichTextNode.data : RichTextNode → List (String × DataVal)
  | .mk _ _ d _ _ => d

def RichTextNode.marks : RichTextNode → List String
  | .mk _ _ _ m _ => m

def RichTextNode.content : RichTextNode → List RichTextNode
  | .mk _ _ _ _ c => c

/-- Structural induction principle for the nested inductive node type. -/
theorem RichTextNode.structuralInd (motive : RichTextNode → Prop)
    (step : ∀ nt v d m c, (∀ x, x ∈ c → motive x) → motive (.mk nt v d m c)) :
    ∀ n, motive n
  | .mk nt v d m c => by
    refine step nt v d m c ?_
    intro x hx
    have : sizeOf x < sizeOf (RichTextNode.mk nt v d m c) := by
      have h1 := List.sizeOf_lt_of_mem hx
      simp only [RichTextNode.mk.sizeOf_spec]
      omega
    exact RichTextNode.structuralInd motive step x
termination_by n => sizeOf n

/-- `isDocument` (richtext_internal.go): the node type equals the document
sentinel. (The Go nil-receiver case is handled before nodes enter the model.) -/
def RichTextNode.isDocument (n : RichTextNode) : Bool :=
  n.nodeType == nodeTypeDocument

/-- The condition under which `extractTextRecursive` emits a node:
`n.NodeType == nodeTypeText && len(n.Value) > 0`. -/
def RichTextNode.emitsText (n : RichTextNode) : Bool :=
  n.nodeType == nodeTypeText && n.value.length > 0

mutual

/-- `extractTextRecursive` (richtext_internal.go): pre-order collection of
`(path, value)` for every text node with non-empty value. The Go code inserts
into a `map[string]string`; since all emitted paths are distinct
(`extractText_keys_nodup` below) the association list in insertion order is
that map. -/
def extractTextRec (n : RichTextNode) (path : String) : List (String × String) :=
  match n with
  | .mk nt v _ _ content =>
    (if nt == nodeTypeText && v.length > 0 then [(path, v)] else []) ++
      extractTextChildren content path 0

/-- The `for i, child := range n.Content` loop of `extractTextRecursive`. -/
def extractTextChildren (cs : List RichTextNode) (path : String) (i : Nat) :
    List (String × String) :=
  match cs with
  | [] => []
  | c :: rest =>
    extractTextRec c (pathAppend path i) ++ extractTextChildren rest path (i + 1)

end

/-- `extractText` (richtext_internal.go): recursion starts at path `"000"`. -/
def RichTextNode.extractText (n : RichTextNode) : List (String × String) :=
  extractTextRec n "000"

mutual

/-- `replaceTextRecursive` (richtext_internal.go): overwrite the value of every
node whose path is a key of the replacement map, leaving all other nodes
untouched. -/
def replaceTextRec (n : RichTextNode) (m : List (String × String)) (path : String) :
    RichTextNode :=
  match n with
  | .mk nt v d mk c =>
    .mk nt ((m.lookup path).getD v) d mk (replaceTextChildren c m path 0)

/-- The `for i, child := range n.Content` loop of `replaceTextRecursive`. -/
def replaceTextChildren (cs : List RichTextNode) (m : List (String × String))
    (path : String) (i : Nat) : List RichTextNode :=
  match cs with
  | [] => []
  | c :: rest =>
    replaceTextRec c m (pathAppend path i) :: replaceTextChildren rest m path (i + 1)

end

/-- `replaceText` (richtext_internal.go): recursion starts at path `"000"`. -/
def RichTextNode.replaceText (n : RichTextNode) (m : List (String × String)) :
    RichTextNode :=
  replaceTextRec n m "000"

/-! Proof infrastructure for the path-addressed traversals: positional
(child-index list) views of `extractText` and `replaceText`, and the node
reached by a child-index sequence. -/

mutual

/-- Positional view of `extractTextRec`: keys are child-index sequences. -/
def extractPosRec (n : RichTextNode) : List (List Nat × String) :=
  match n with
  | .mk nt v _ _ content =>
    (if nt == nodeTypeText && v.length > 0 then [(([] : List Nat), v)] else []) ++
      extractPosChildren content 0

def extractPosChildren (cs : List RichTextNode) (i : Nat) : List (List Nat × String) :=
  match cs with
  | [] => []
  | c :: rest =>
    (extractPosRec c).map (fun q => (i :: q.1, q.2)) ++ extractPosChildren rest (i + 1)

end

mutual

/-- Positional view of `replaceTextRec`: the replacement map is a function
from child-index sequences. -/
def replacePosRec (n : RichTextNode) (F : List Nat → Option String) : RichTextNode :=
  match n with
  | .mk nt v d mk c =>
    .mk nt ((F []).getD v) d mk (replacePosChildren c F 0)

def replacePosChildren (cs : List RichTextNode) (F : List Nat → Option String)
    (i : Nat) : List RichTextNode :=
  match cs with
  | [] => []
  | c :: rest =>
    replacePosRec c (fun ks => F (i :: ks)) :: replacePosChildren rest F (i + 1)

end

mutual

/-- Specification-side description of what `replaceText` does when fed
`extractText`'s own map with values transformed by `f`: apply `f` to the value
of every text node with non-empty value and keep every other part of every
node unchanged. -/
def mapEmitRec (f : String → String) (n : RichTextNode) : RichTextNode :=
  match n with
  | .mk nt v d mk c =>
    .mk nt (if nt == nodeTypeText && v.length > 0 then f v else v) d mk
      (mapEmitChildren f c)

def mapEmitChildren (f : String → String) (cs : List RichTextNode) :
    List RichTextNode :=
  match cs with
  | [] => []
  | c :: rest => mapEmitRec f c :: mapEmitChildren f rest

end

/-- The node reached from `n` by following a child-index sequence. -/
def getNode (n : RichTextNode) : List Nat → Option RichTextNode
  | [] => some n
  | i :: ks =>
    match n.content[i]? with
    | some c => getNode c ks
    | none => none

/-- The text emitted by a node, if any. -/
def emitVal (n : RichTextNode) : Option String :=
  if n.emitsText then some n.value else none

theorem lookup_append {α β : Type} [BEq α] (l1 l2 : List (α × β)) (k : α) :
    (l1 ++ l2).lookup k =
      (match l1.lookup k with
       | some v => some v
       | none => l2.lookup k) := by
  induction l1 with
  | nil => simp [List.lookup]
  | cons a t ih =>
    rcases a with ⟨a1, a2⟩
    simp only [List.cons_append, List.lookup]
    cases k == a1 <;> simp [ih]

theorem extractTextChildren_eq (cs : List RichTextNode)
    (H : ∀ x ∈ cs, ∀ p,
      extractTextRec x p = (extractPosRec x).map (fun q => (pathOfPos p q.1, q.2))) :
    ∀ (i : Nat) (p : String),
      extractTextChildren cs p i =
        (extractPosChildren cs i).map (fun q => (pathOfPos p q.1, q.2)) := by
  induction cs with
  | nil => intro i p; rfl
  | cons c rest ih =>
    intro i p
    show extractTextRec c (pathAppend p i) ++ extractTextChildren rest p (i + 1) = _
    rw [H c (List.mem_cons_self c rest),
      ih (fun x hx => H x (List.mem_cons_of_mem c hx)) (i + 1) p]
    show _ = ((extractPosRec c).map (fun q => (i :: q.1, q.2)) ++
      extractPosChildren rest (i + 1)).map (fun q => (pathOfPos p q.1, q.2))
    rw [List.map_append, List.map_map]
    rfl

theorem extractTextRec_eq (n : RichTextNode) : ∀ p : String,
    extractTextRec n p = (extractPosRec n).map (fun q => (pathOfPos p q.1, q.2)) := by
  induction n using RichTextNode.structuralInd with
  | step nt v d m c ih =>
    intro p
    show (if nt == nodeTypeText && v.length > 0 then [(p, v)] else []) ++
        extractTextChildren c p 0 = _
    rw [extractTextChildren_eq c ih 0 p]
    show _ = ((if nt == nodeTypeText && v.length > 0 then [(([] : List Nat), v)] else []) ++
      extractPosChildren c 0).map (fun q => (pathOfPos p q.1, q.2))
    rw [List.map_append]
    cases nt == nodeTypeText && v.length > 0 <;> simp [pathOfPos]

theorem replaceTextChildren_eq (cs : List RichTextNode)
    (H : ∀ x ∈ cs, ∀ (m : List (String × String)) (p : String),
      replaceTextRec x m p = replacePosRec x (fun ks => m.lookup (pathOfPos p ks))) :
    ∀ (m : List (String × String)) (p : String) (i : Nat),
      replaceTextChildren cs m p i =
        replacePosChildren cs (fun ks => m.lookup (pathOfPos p ks)) i := by
  induction cs with
  | nil => intro m p i; rfl
  | cons c rest ih =>
    intro m p i
    show replaceTextRec c m (pathAppend p i) :: replaceTextChildren rest m p (i + 1) = _
    rw [H c (List.mem_cons_self c rest),
      ih (fun x hx => H x (List.mem_cons_of_mem c hx)) m p (i + 1)]
    rfl

theorem replaceTextRec_eq (n : RichTextNode) :
    ∀ (m : List (String × String)) (p : String),
      replaceTextRec n m p = replacePosRec n (fun ks => m.lookup (pathOfPos p ks)) := by
  induction n using RichTextNode.structuralInd with
  | step nt v d mk c ih =>
    intro m p
    show RichTextNode.mk nt ((m.lookup p).getD v) d mk (replaceTextChildren c m p 0) = _
    rw [replaceTextChildren_eq c ih m p 0]
    rfl

theorem lookup_map_cons_ne (l : List (List Nat × String)) (i j : Nat) (hne : j ≠ i) :
    ∀ ks : List Nat, ((l.map (fun q => (i :: q.1, q.2))).lookup (j :: ks)) = none := by
  induction l with
  | nil => intro ks; rfl
  | cons q rest ih =>
    intro ks
    have hb : ((j :: ks : List Nat) == (i :: q.1)) = false := by
      rw [beq_eq_false_iff_ne]
      intro hc
      exact hne (List.cons.injEq .. ▸ hc).1
    simp [List.lookup, hb, ih ks]

theorem lookup_map_cons_eq (l : List (List Nat × String)) (i : Nat) :
    ∀ ks : List Nat, ((l.map (fun q => (i :: q.1, q.2))).lookup (i :: ks)) = l.lookup ks := by
  induction l with
  | nil => intro ks; rfl
  | cons q rest ih =>
    intro ks
    by_cases hk : ks = q.1
    · subst hk
      simp [List.lookup]
    · have h1 : ((i :: ks : List Nat) == (i :: q.1)) = false := by
        rw [beq_eq_false_iff_ne]
        intro hc
        exact hk (List.cons.injEq .. ▸ hc).2
      have h2 : ((ks : List Nat) == q.1) = false := beq_eq_false_iff_ne.mpr hk
      simp [List.lookup, h1, h2, ih ks]

theorem lookup_extractPosChildren_nil (cs : List RichTextNode) :
    ∀ i : Nat, (extractPosChildren cs i).lookup ([] : List Nat) = none := by
  induction cs with
  | nil => intro i; rfl
  | cons c rest ih =>
    intro i
    show (((extractPosRec c).map (fun q => (i :: q.1, q.2)) ++
      extractPosChildren rest (i + 1)).lookup []) = none
    rw [lookup_append]
    have hhead : ((extractPosRec c).map (fun q => (i :: q.1, q.2))).lookup ([] : List Nat)
        = none := by
      clear ih
      induction extractPosRec c with
      | nil => rfl
      | cons q rest2 ih2 =>
        have hb : (([] : List Nat) == (i :: q.1)) = false := by
          rw [beq_eq_false_iff_ne]
          exact fun hc => List.noConfusion hc
        simp [List.lookup, hb, ih2]
    rw [hhead, ih (i + 1)]

theorem lookup_extractPosChildren (cs : List RichTextNode)
    (H : ∀ x ∈ cs, ∀ js : List Nat,
      (extractPosRec x).lookup js = (getNode x js).bind emitVal) :
    ∀ (i0 j : Nat) (ks : List Nat),
      (extractPosChildren cs i0).lookup (j :: ks) =
        if i0 ≤ j then
          (match cs[j - i0]? with
           | some x => (getNode x ks).bind emitVal
           | none => none)
        else none := by
  induction cs with
  | nil =>
    intro i0 j ks
    show (List.lookup _ []) = _
    simp [List.lookup]
  | cons c rest ih =>
    intro i0 j ks
    show (((extractPosRec c).map (fun q => (i0 :: q.1, q.2)) ++
      extractPosChildren rest (i0 + 1)).lookup (j :: ks)) = _
    rw [lookup_append]
    by_cases hji : j = i0
    · subst hji
      rw [lookup_map_cons_eq, H c (List.mem_cons_self c rest)]
      cases hg : (getNode c ks).bind emitVal with
      | some v => simp [hg, Nat.sub_self]
      | none =>
        rw [ih (fun x hx => H x (List.mem_cons_of_mem c hx)) (j + 1) j ks]
        simp only [Nat.sub_self, List.getElem?_cons_zero]
        have : ¬ (j + 1 ≤ j) := by omega
        simp [this, hg]
    · rw [lookup_map_cons_ne _ _ _ hji,
        ih (fun x hx => H x (List.mem_cons_of_mem c hx)) (i0 + 1) j ks]
      by_cases hle : i0 ≤ j
      · have hlt : i0 + 1 ≤ j := by omega
        have harith : j - i0 = (j - (i0 + 1)) + 1 := by omega
        simp only [hle, if_true, hlt, harith, List.getElem?_cons_succ]
      · have : ¬ (i0 + 1 ≤ j) := by omega
        simp [hle, this]

theorem lookup_extractPosRec (n : RichTextNode) : ∀ js : List Nat,
    (extractPosRec n).lookup js = (getNode n js).bind emitVal := by
  induction n using RichTextNode.structuralInd with
  | step nt v d m c ih =>
    intro js
    show ((if nt == nodeTypeText && v.length > 0 then [(([] : List Nat), v)] else []) ++
      extractPosChildren c 0).lookup js = _
    rw [lookup_append]
    cases js with
    | nil =>
      rw [lookup_extractPosChildren_nil c 0]
      show _ = (some (RichTextNode.mk nt v d m c)).bind emitVal
      simp only [Option.some_bind, emitVal, RichTextNode.emitsText]
      show _ = if (nt == nodeTypeText && v.length > 0) = true then some v else none
      cases he : nt == nodeTypeText && v.length > 0 <;> simp [List.lookup, he]
    | cons j ks =>
      have hhead : (if nt == nodeTypeText && v.length > 0
          then [(([] : List Nat), v)] else []).lookup (j :: ks) = none := by
        have hb : ((j :: ks : List Nat) == ([] : List Nat)) = false := by
          rw [beq_eq_false_iff_ne]
          exact fun hc => List.noConfusion hc
        cases nt == nodeTypeText && v.length > 0 <;> simp [List.lookup, hb]
      rw [hhead]
      rw [lookup_extractPosChildren c ih 0 j ks]
      show _ = (getNode (RichTextNode.mk nt v d m c) (j :: ks)).bind emitVal
      show _ = (match getElem? c j with
        | some x => getNode x ks
        | none => none).bind emitVal
      simp only [Nat.zero_le, if_true, Nat.sub_zero]
      cases hg : getElem? c j with
      | some x => simp [hg]
      | none => simp [hg]

theorem replacePosChildren_eq_mapEmit (f : String → String) (cs : List RichTextNode)
    (H : ∀ x ∈ cs, ∀ F : List Nat → Option String,
      (∀ js, F js = ((getNode x js).bind emitVal).map f) → replacePosRec x F = mapEmitRec f x) :
    ∀ (i0 : Nat) (F : List Nat → Option String),
      (∀ (j : Nat) (ks : List Nat), i0 ≤ j →
        F (j :: ks) = (((getElem? cs (j - i0)).bind (fun x => getNode x ks)).bind emitVal).map f) →
      replacePosChildren cs F i0 = mapEmitChildren f cs := by
  induction cs with
  | nil => intro i0 F _; rfl
  | cons c rest ih =>
    intro i0 F HF
    show replacePosRec c (fun ks => F (i0 :: ks)) :: replacePosChildren rest F (i0 + 1)
      = mapEmitRec f c :: mapEmitChildren f rest
    congr 1
    · apply H c (List.mem_cons_self c rest)
      intro js
      have h0 := HF i0 js (Nat.le_refl i0)
      simpa [Nat.sub_self] using h0
    · apply ih (fun x hx F hF => H x (List.mem_cons_of_mem c hx) F hF) (i0 + 1) F
      intro j ks hj
      have h1 := HF j ks (by omega)
      rw [h1]
      have harith : j - i0 = (j - (i0 + 1)) + 1 := by omega
      rw [harith, List.getElem?_cons_succ]

theorem replacePosRec_eq_mapEmit (f : String → String) (n : RichTextNode) :
    ∀ F : List Nat → Option String,
      (∀ js, F js = ((getNode n js).bind emitVal).map f) →
      replacePosRec n F = mapEmitRec f n := by
  induction n using RichTextNode.structuralInd with
  | step nt v d m c ih =>
    intro F HF
    show RichTextNode.mk nt ((F []).getD v) d m (replacePosChildren c F 0)
      = RichTextNode.mk nt (if nt == nodeTypeText && v.length > 0 then f v else v) d m
        (mapEmitChildren f c)
    congr 1
    · rw [HF []]
      simp only [getNode, Option.some_bind, emitVal, RichTextNode.emitsText,
        RichTextNode.nodeType, RichTextNode.value]
      cases he : nt == nodeTypeText && decide (v.length > 0) <;> simp [he]
    · apply replacePosChildren_eq_mapEmit f c ih 0 F
      intro j ks _
      rw [HF (j :: ks)]
      show ((getNode (RichTextNode.mk nt v d m c) (j :: ks)).bind emitVal).map f = _
      show ((match getElem? c j with
        | some x => getNode x ks
        | none => none).bind emitVal).map f = _
      simp only [Nat.sub_zero]
      cases hg : getElem? c j <;> simp [hg]

theorem lookup_map_key (f : String → String) (g : List Nat → String)
    (hg : ∀ a b, g a = g b → a = b) :
    ∀ (l : List (List Nat × String)) (k : List Nat),
      ((l.map (fun q => (g q.1, f q.2))).lookup (g k)) = (l.lookup k).map f := by
  intro l
  induction l with
  | nil => intro k; rfl
  | cons q rest ih =>
    intro k
    by_cases hk : k = q.1
    · subst hk
      simp [List.lookup]
    · have h1 : (g k == g q.1) = false :=
        beq_eq_false_iff_ne.mpr (fun hc => hk (hg _ _ hc))
      have h2 : (k == q.1) = false := beq_eq_false_iff_ne.mpr hk
      simp [List.lookup, h1, h2, ih k]

theorem mapEmitChildren_id (cs : List RichTextNode)
    (H : ∀ x ∈ cs, mapEmitRec (fun s => s) x = x) :
    mapEmitChildren (fun s => s) cs = cs := by
  induction cs with
  | nil => rfl
  | cons c rest ih =>
    show mapEmitRec (fun s => s) c :: mapEmitChildren (fun s => s) rest = c :: rest
    rw [H c (List.mem_cons_self c rest), ih (fun x hx => H x (List.mem_cons_of_mem c hx))]

theorem mapEmit_id (n : RichTextNode) : mapEmitRec (fun s => s) n = n := by
  induction n using RichTextNode.structuralInd with
  | step nt v d m c ih =>
    show RichTextNode.mk nt (if nt == nodeTypeText && v.length > 0 then v else v) d m
      (mapEmitChildren (fun s => s) c) = RichTextNode.mk nt v d m c
    rw [mapEmitChildren_id c ih, ite_self]

theorem replaceText_mapValues (t : RichTextNode) (f : String → String) :
    t.replaceText (t.extractText.map (fun q => (q.1, f q.2))) = mapEmitRec f t := by
  show replaceTextRec t (t.extractText.map (fun q => (q.1, f q.2))) "000" = _
  rw [replaceTextRec_eq]
  apply replacePosRec_eq_mapEmit
  intro js
  show ((RichTextNode.extractText t).map (fun q => (q.1, f q.2))).lookup
    (pathOfPos "000" js) = _
  rw [RichTextNode.extractText, extractTextRec_eq, List.map_map]
  have hcomp : ((fun q => ((q : String × String).1, f q.2)) ∘
      (fun q => (pathOfPos "000" (q : List Nat × String).1, q.2)))
      = fun q => (pathOfPos "000" q.1, f q.2) := rfl
  rw [hcomp, lookup_map_key f (pathOfPos "000") (fun a b => pathOfPos_inj "000"),
    lookup_extractPosRec]

theorem extractPosChildren_key_shape (cs : List RichTextNode) :
    ∀ (i0 : Nat) (q : List Nat × String), q ∈ extractPosChildren cs i0 →
      ∃ j ks, q.1 = j :: ks ∧ i0 ≤ j := by
  induction cs with
  | nil => intro i0 q hq; exact absurd hq (List.not_mem_nil q)
  | cons c rest ih =>
    intro i0 q hq
    rcases List.mem_append.mp hq with hq | hq
    · rcases List.mem_map.mp hq with ⟨q', _, hq'⟩
      exact ⟨i0, q'.1, by rw [← hq'], Nat.le_refl i0⟩
    · rcases ih (i0 + 1) q hq with ⟨j, ks, h1, h2⟩
      exact ⟨j, ks, h1, by omega⟩

theorem extractPosChildren_keys_nodup (cs : List RichTextNode)
    (H : ∀ x ∈ cs, ((extractPosRec x).map Prod.fst).Nodup) :
    ∀ i0 : Nat, ((extractPosChildren cs i0).map Prod.fst).Nodup := by
  induction cs with
  | nil => intro i0; exact List.nodup_nil
  | cons c rest ih =>
    intro i0
    show (((extractPosRec c).map (fun q => (i0 :: q.1, q.2)) ++
      extractPosChildren rest (i0 + 1)).map Prod.fst).Nodup
    rw [List.map_append]
    rw [List.nodup_append]
    refine ⟨?_, ?_, ?_⟩
    · rw [List.map_map]
      have : (Prod.fst ∘ fun q : List Nat × String => (i0 :: q.1, q.2))
          = (fun ks => i0 :: ks) ∘ Prod.fst := rfl
      rw [this, ← List.map_map]
      exact (H c (List.mem_cons_self c rest)).map
        (fun a b hab => (List.cons.injEq .. ▸ hab).2)
    · exact ih (fun x hx => H x (List.mem_cons_of_mem c hx)) (i0 + 1)
    · intro a ha hb
      rcases List.mem_map.mp ha with ⟨q, hqmem, hq⟩
      rcases List.mem_map.mp hqmem with ⟨q0, _, hq0⟩
      rcases List.mem_map.mp hb with ⟨q', hq'mem, hq'⟩
      rcases extractPosChildren_key_shape rest (i0 + 1) q' hq'mem with ⟨j, ks, hshape, hle⟩
      have ha' : a = i0 :: q0.1 := by rw [← hq, ← hq0]
      have hb' : a = j :: ks := by rw [← hq', hshape]
      have : i0 = j := by
        rw [ha'] at hb'
        exact (List.cons.injEq .. ▸ hb').1
      omega

theorem extractPosRec_keys_nodup (n : RichTextNode) :
    ((extractPosRec n).map Prod.fst).Nodup := by
  induction n using RichTextNode.structuralInd with
  | step nt v d m c ih =>
    show (((if nt == nodeTypeText && v.length > 0 then [(([] : List Nat), v)] else []) ++
      extractPosChildren c 0).map Prod.fst).Nodup
    rw [List.map_append, List.nodup_append]
    refine ⟨?_, extractPosChildren_keys_nodup c ih 0, ?_⟩
    · cases nt == nodeTypeText && v.length > 0 <;> simp
    · intro a ha hb
      rcases List.mem_map.mp hb with ⟨q, hqmem, hq⟩
      rcases extractPosChildren_key_shape c 0 q hqmem with ⟨j, ks, hshape, _⟩
      have ha' : a = [] := by
        by_cases hcond : (nt == nodeTypeText && decide (v.length > 0)) = true
        · rw [if_pos hcond] at ha
          simpa using ha
        · rw [if_neg hcond] at ha
          simp at ha
      have hq' : a = j :: ks := by rw [← hq, hshape]
      rw [ha'] at hq'
      exact List.noConfusion hq'

/-- The path keys produced by one `extractText` traversal are pairwise
distinct, so the association list faithfully models the Go
`map[string]string` it is inserted into. -/
theorem extractText_keys_nodup (n : RichTextNode) (p : String) :
    ((extractTextRec n p).map Prod.fst).Nodup := by
  rw [extractTextRec_eq, List.map_map]
  have : (Prod.fst ∘ fun q : List Nat × String => (pathOfPos p q.1, q.2))
      = pathOfPos p ∘ Prod.fst := rfl
  rw [this, ← List.map_map]
  exact (extractPosRec_keys_nodup n).map (fun a b hab => pathOfPos_inj p hab)

/-- C2: calling `replaceText` with exactly the map returned by `extractText`
leaves the tree unchanged, and calling it with that map's values transformed
by an arbitrary function `f` yields precisely the tree in which every text
leaf with non-empty value — the leaves whose paths are the map's keys — holds
`f` of its old value and every other part of every node is untouched
(`mapEmitRec f`). -/
theorem C2_path_stability (t : RichTextNode) (f : String → String) :
    t.replaceText t.extractText = t
    ∧ t.replaceText (t.extractText.map (fun q => (q.1, f q.2))) = mapEmitRec f t := by
  constructor
  · have h : t.replaceText (t.extractText.map (fun a => a)) = mapEmitRec (fun s => s) t :=
      replaceText_mapValues t (fun s => s)
    rw [List.map_id'] at h
    rw [h, mapEmit_id]
  · exact replaceText_mapValues t f

/-! ### Publishing status theorems (claim C1) -/

/-- C1 counterexample: at `Version = 1, PublishedVersion = 0` (a fresh entity
that has never been published) `IsPublished()` returns `true` while
`GetPublishingStatus()` returns draft, so the claimed "IsPublished() is true
iff GetPublishingStatus() is Published" fails on this non-negative pair. -/
theorem C1_counterexample :
    Sys.IsPublished ⟨1, 0⟩ = true ∧ Sys.GetPublishingStatus ⟨1, 0⟩ ≠ StatusPublished := by
  constructor
  · rfl
  · decide

/-- C1 amended: for every pair of integers, `GetPublishingStatus` returns
draft when `publishedVersion = 0` (this guard wins even when
`version - publishedVersion = 1`), else published when
`version - publishedVersion = 1`, else changed; `IsPublished()` returns true
iff `version - publishedVersion = 1`, which coincides with the status being
published whenever `publishedVersion ≠ 0`. -/
theorem C1_publishing_status (v pv : Int) :
    Sys.GetPublishingStatus ⟨v, pv⟩ =
      (if pv = 0 then StatusDraft
       else if v - pv = 1 then StatusPublished
       else StatusChanged)
    ∧ (Sys.IsPublished ⟨v, pv⟩ = true ↔ v - pv = 1)
    ∧ (pv ≠ 0 →
        (Sys.IsPublished ⟨v, pv⟩ = true ↔ Sys.GetPublishingStatus ⟨v, pv⟩ = StatusPublished)) := by
  refine ⟨?_, ?_, ?_⟩
  · simp [Sys.GetPublishingStatus, Sys.IsPublished]
  · simp [Sys.IsPublished]
  · intro hpv
    simp only [Sys.GetPublishingStatus, Sys.IsPublished, beq_iff_eq, hpv, if_false]
    by_cases hd : v - pv = 1
    · simp [hd]
    · simp only [hd, if_false, false_iff]
      decide

/-- Witness for `C1_publishing_status` at the spec's own example
`version = 3, publishedVersion = 1` (status changed, not published). -/
theorem C1_publishing_status_witness :
    Sys.IsPublished ⟨3, 1⟩ = true ↔ Sys.GetPublishingStatus ⟨3, 1⟩ = StatusPublished :=
  (C1_publishing_status 3 1).2.2 (by decide)

/-! ### Serialization of rich-text nodes (claim C3) -/

/-- The JSON object shapes that `RichTextNode.MarshalJSON`
(richtext_internal.go) can emit: a text-type node carries exactly
`nodeType`, `data`, `value` and `marks` (no `content` key); every other node
carries exactly `nodeType`, `data` and `content` (no `value` or `marks`
keys). -/
inductive SerializedNode where
  | text (nodeType : String) (data : List (String × DataVal)) (value : String)
      (marks : List String)
  | node (nodeType : String) (data : List (String × DataVal))
      (content : List SerializedNode)

/-- Structural induction principle for `SerializedNode`. -/
theorem SerializedNode.serializedInd (motive : SerializedNode → Prop)
    (text : ∀ nt d v m, motive (.text nt d v m))
    (node : ∀ nt d c, (∀ x, x ∈ c → motive x) → motive (.node nt d c)) :
    ∀ s, motive s
  | .text nt d v m => text nt d v m
  | .node nt d c => by
    refine node nt d c ?_
    intro x hx
    have : sizeOf x < sizeOf (SerializedNode.node nt d c) := by
      have h1 := List.sizeOf_lt_of_mem hx
      simp only [SerializedNode.node.sizeOf_spec]
      omega
    exact SerializedNode.serializedInd motive text node x
termination_by s => sizeOf s

mutual

/-- `RichTextNode.MarshalJSON` (richtext_internal.go): a node whose type is
`"text"` serializes its data, value and marks and omits its children; any
other node serializes its data and children and omits value and marks. -/
def marshalNode (n : RichTextNode) : SerializedNode :=
  match n with
  | .mk nt v d mk c =>
    if nt == nodeTypeText then .text nt d v mk else .node nt d (marshalChildren c)

def marshalChildren (cs : List RichTextNode) : List SerializedNode :=
  match cs with
  | [] => []
  | c :: rest => marshalNode c :: marshalChildren rest

end

mutual

/-- `json.Unmarshal` of a serialized document into the `RichTextNode` struct
(the decoding step of `parseRichText`): absent keys decode to Go zero values,
so a serialized text node gets an empty child list and a serialized container
gets an empty value and mark list. -/
def unmarshalNode (s : SerializedNode) : RichTextNode :=
  match s with
  | .text nt d v m => .mk nt v d m []
  | .node nt d c => .mk nt "" d [] (unmarshalChildren c)

def unmarshalChildren (cs : List SerializedNode) : List RichTextNode :=
  match cs with
  | [] => []
  | c :: rest => unmarshalNode c :: unmarshalChildren rest

end

mutual

/-- A serialized document is in the canonical encoding when value-and-marks
nodes are exactly the ones tagged with the text node type: no container node
is tagged `"text"` (the claim's "text nodes never carry a content key") and
no node with `value`/`marks` keys is tagged otherwise (the claim's "container
nodes never carry value/marks"). -/
def serializedWF (s : SerializedNode) : Bool :=
  match s with
  | .text nt _ _ _ => nt == nodeTypeText
  | .node nt _ c => !(nt == nodeTypeText) && serializedWFChildren c

def serializedWFChildren (cs : List SerializedNode) : Bool :=
  match cs with
  | [] => true
  | c :: rest => serializedWF c && serializedWFChildren rest

end

theorem marshal_unmarshal_children (cs : List SerializedNode)
    (H : ∀ x ∈ cs, serializedWF x = true → marshalNode (unmarshalNode x) = x)
    (hwf : serializedWFChildren cs = true) :
    marshalChildren (unmarshalChildren cs) = cs := by
  induction cs with
  | nil => rfl
  | cons c rest ih =>
    have hwf' : serializedWF c = true ∧ serializedWFChildren rest = true := by
      have : (serializedWF c && serializedWFChildren rest) = true := hwf
      exact ⟨by simpa using (Bool.and_eq_true _ _ ▸ this).1,
        by simpa using (Bool.and_eq_true _ _ ▸ this).2⟩
    show marshalNode (unmarshalNode c) :: marshalChildren (unmarshalChildren rest) = c :: rest
    rw [H c (List.mem_cons_self c rest) hwf'.1,
      ih (fun x hx => H x (List.mem_cons_of_mem c hx)) hwf'.2]

theorem marshal_unmarshal (s : SerializedNode) (hwf : serializedWF s = true) :
    marshalNode (unmarshalNode s) = s := by
  induction s using SerializedNode.serializedInd with
  | text nt d v m =>
    have hnt : (nt == nodeTypeText) = true := hwf
    show (if nt == nodeTypeText then SerializedNode.text nt d v m
      else SerializedNode.node nt d (marshalChildren [])) = _
    rw [hnt, if_pos rfl]
  | node nt d c ih =>
    have h1 : (!(nt == nodeTypeText) && serializedWFChildren c) = true := hwf
    have hnt : (nt == nodeTypeText) = false := by
      rcases Bool.and_eq_true _ _ ▸ h1 with ⟨ha, _⟩
      simpa using ha
    have hc : serializedWFChildren c = true := (Bool.and_eq_true _ _ ▸ h1).2
    show marshalNode (.mk nt "" d [] (unmarshalChildren c)) = _
    show (if nt == nodeTypeText then SerializedNode.text nt d "" []
      else SerializedNode.node nt d (marshalChildren (unmarshalChildren c))) = _
    rw [hnt]
    simp only [Bool.false_eq_true, if_false, SerializedNode.node.injEq, true_and]
    exact marshal_unmarshal_children c (fun x hx h => ih x hx h) hc

/-- C3: `MarshalJSON` emits, for a text-tagged node, exactly its data, value
and marks with no content, and for any other node exactly its data and
serialized children with no value or marks; consequently decoding a document
in the canonical encoding (no container tagged `"text"`) and re-serializing
it reproduces it exactly. -/
theorem C3_serialization_roundtrip (s : SerializedNode) (n : RichTextNode)
    (hwf : serializedWF s = true) :
    marshalNode (unmarshalNode s) = s
    ∧ (match marshalNode n with
       | .text nt d v mk =>
          (n.nodeType == nodeTypeText) = true ∧ nt = n.nodeType ∧ d = n.data
            ∧ v = n.value ∧ mk = n.marks
       | .node nt d c =>
          (n.nodeType == nodeTypeText) = false ∧ nt = n.nodeType ∧ d = n.data
            ∧ c = marshalChildren n.content) := by
  refine ⟨marshal_unmarshal s hwf, ?_⟩
  rcases n with ⟨nt, v, d, mk, c⟩
  show (match (if nt == nodeTypeText then SerializedNode.text nt d v mk
      else SerializedNode.node nt d (marshalChildren c)) with
    | .text nt' d' v' mk' => _ ∧ nt' = _ ∧ d' = _ ∧ v' = _ ∧ mk' = _
    | .node nt' d' c' => _ ∧ nt' = _ ∧ d' = _ ∧ c' = _)
  cases hnt : nt == nodeTypeText with
  | true => simp only [if_true]; exact ⟨hnt, rfl, rfl, rfl, rfl⟩
  | false =>
    simp only [Bool.false_eq_true, if_false]
    exact ⟨hnt, rfl, rfl, rfl⟩

/-- Witness for `C3_serialization_roundtrip`: a concrete two-node document in
the canonical encoding round-trips, and the shape clause holds at a concrete
text node. -/
theorem C3_serialization_roundtrip_witness :
    marshalNode (unmarshalNode (.node "document" []
      [.text "text" [] "hi" ["bold"]])) = .node "document" [] [.text "text" [] "hi" ["bold"]] :=
  (C3_serialization_roundtrip (.node "document" [] [.text "text" [] "hi" ["bold"]])
    (.mk "text" "hi" [] [] []) (by rfl)).1

/-! ### Lexicographic string order (`sort.Strings` in translate.go) -/

/-- Lexicographic comparison of character lists by code point; on UTF-8
strings this coincides with Go's byte-wise string order used by
`sort.Strings`. -/
def strLeChars : List Char → List Char → Bool
  | [], _ => true
  | _ :: _, [] => false
  | a :: as, b :: bs =>
    if a.toNat < b.toNat then true
    else if b.toNat < a.toNat then false
    else strLeChars as bs

/-- Go's string order: `a <= b`. -/
def strLe (a b : String) : Bool := strLeChars a.data b.data

theorem strLeChars_total : ∀ a b : List Char,
    strLeChars a b = true ∨ strLeChars b a = true := by
  intro a
  induction a with
  | nil => intro b; left; cases b <;> rfl
  | cons x xs ih =>
    intro b
    cases b with
    | nil => right; rfl
    | cons y ys =>
      simp only [strLeChars]
      by_cases h1 : x.toNat < y.toNat
      · left; simp [h1]
      · by_cases h2 : y.toNat < x.toNat
        · right; simp [h1, h2]
        · simpa [h1, h2] using ih ys

theorem strLeChars_trans : ∀ a b c : List Char,
    strLeChars a b = true → strLeChars b c = true → strLeChars a c = true := by
  intro a
  induction a with
  | nil => intro b c _ _; cases c <;> rfl
  | cons x xs ih =>
    intro b c hab hbc
    cases b with
    | nil => exact absurd hab (by simp [strLeChars])
    | cons y ys =>
      cases c with
      | nil => exact absurd hbc (by simp [strLeChars])
      | cons z zs =>
        simp only [strLeChars] at hab hbc ⊢
        by_cases h1 : x.toNat < y.toNat <;> by_cases h2 : y.toNat < z.toNat <;>
          by_cases h3 : x.toNat < z.toNat <;>
            simp_all only [if_true, if_false]
        all_goals first
          | (exfalso; omega)
          | (rw [if_pos (by omega)] at hbc; exact absurd hbc (by decide))
          | (rw [if_pos (by omega)] at hab; exact absurd hab (by decide))
          | (have hyx : ¬ (y.toNat < x.toNat) := by
               intro hc
               rw [if_pos hc] at hab
               exact absurd hab (by decide)
             have hzy : ¬ (z.toNat < y.toNat) := by
               intro hc
               rw [if_pos hc] at hbc
               exact absurd hbc (by decide)
             rw [if_neg hyx] at hab
             rw [if_neg hzy] at hbc
             rw [if_neg (by omega)]
             exact ih ys zs hab hbc)

theorem strLe_total (a b : String) : strLe a b = true ∨ strLe b a = true :=
  strLeChars_total a.data b.data

theorem strLe_trans {a b c : String} (hab : strLe a b = true) (hbc : strLe b c = true) :
    strLe a c = true :=
  strLeChars_trans a.data b.data c.data hab hbc

/-! ### Entity field access (types.go, entities.go) -/

/-- A single locale's field value (a Go `any`): a JSON string, a JSON value
that `parseRichText` decodes into a `RichTextNode` (generic maps loaded from
the API as well as `*RichTextNode` values stored by `SetFieldValue`), or any
other JSON value (numbers, booleans, arrays, objects that fail to decode),
kept opaque. -/
inductive FieldValue where
  | str (s : String)
  | rich (n : RichTextNode)
  | other (tag : Nat)

/-- The value stored under a field name in `Entry.Fields` (a Go `any`):
normally a locale map `map[string]any`, but possibly any non-map value, kept
opaque (the `fieldValue.(map[string]any)` type assertion in
`EntryEntity.GetFieldValue` then fails). -/
inductive FieldRaw where
  | lmap (m : List (String × FieldValue))
  | nonMap (tag : Nat)

/-- An entry entity's mutable state: its `Fields` map
(`field name → locale → value`). Go map writes are modeled by `listSet`
below; lookups only via `List.lookup`, so insertion order is immaterial. -/
structure Entity where
  fields : List (String × FieldRaw)

/-- Go map assignment `m[k] = v`: replace the value at an existing key,
otherwise add the binding. -/
def listSet {α β : Type} [BEq α] : List (α × β) → α → β → List (α × β)
  | [], k, v => [(k, v)]
  | (a, b) :: rest, k, v =>
    if k == a then (k, v) :: rest else (a, b) :: listSet rest k v

/-- `EntryEntity.GetFieldValue` (entities.go): `fields[field][locale]`, `nil`
when the field is absent, is not a locale map, or lacks the locale. (A stored
Go `nil` value is indistinguishable from an absent locale for every caller,
so it is not modeled separately.) -/
def Entity.GetFieldValue (e : Entity) (fieldName locale : String) : Option FieldValue :=
  match e.fields.lookup fieldName with
  | some (.lmap m) => m.lookup locale
  | some (.nonMap _) => none
  | none => none

/-- `EntryEntity.SetFieldValue` (entities.go): create the field's locale map
if the field is absent, replace a non-map field value by a fresh locale map,
then assign under the locale. -/
def Entity.SetFieldValue (e : Entity) (fieldName locale : String) (v : FieldValue) :
    Entity :=
  match e.fields.lookup fieldName with
  | some (.lmap m) => ⟨listSet e.fields fieldName (.lmap (listSet m locale v))⟩
  | some (.nonMap _) => ⟨listSet e.fields fieldName (.lmap [(locale, v)])⟩
  | none => ⟨listSet e.fields fieldName (.lmap [(locale, v)])⟩

/-- `parseRichText` (richtext_internal.go) on a non-nil value: a JSON string
or any other non-decodable value fails to unmarshal into the node struct; a
decodable value yields its node. (`nil` inputs are short-circuited by every
caller before parsing.) -/
def parseRichTextV : FieldValue → Except Unit RichTextNode
  | .str _ => .error ()
  | .rich n => .ok n
  | .other _ => .error ()

/-! ### Field translation orchestration (translate.go) -/

/-- Errors produced by the translation orchestration, one constructor per
`fmt.Errorf` site in translate.go. -/
inductive TErr where
  | translationFailedAt (path : String)
  | translationFailed
  | batchFailed
  | lengthMismatch (got expected : Nat)
  | unsupportedFieldType (fieldName : String)
deriving Repr, DecidableEq

/-- Result of a `TranslateField`-family call: the entity state after the
call, the billed character count, the returned error, and — the observation
several claims are about — the texts the caller-supplied translation
function was invoked on, in invocation order. -/
structure TFOut where
  entity : Entity
  billed : Nat
  err : Option TErr
  calls : List String

/-- The `for path, text := range texts` loop of `TranslateField`
(translate.go): translate each leaf, accumulating the translated map, the
billed count and the invoked texts; on the first failure stop and report the
failing path. Go iterates the map in unspecified order; the model iterates
in traversal order, which yields the same successful outcome (the map built
is keyed) and the same skip/error observations the claims concern. -/
def translateEach (tr : String → Except Unit (String × Nat)) :
    List (String × String) → List (String × String) × Nat × List String × Option String
  | [] => ([], 0, [], none)
  | (path, text) :: rest =>
    match tr text with
    | .error _ => ([], 0, [text], some path)
    | .ok (res, b) =>
      let out := translateEach tr rest
      ((path, res) :: out.1, b + out.2.1, text :: out.2.2.1, out.2.2.2)

/-- The fall-through tail of `TranslateField` (translate.go): the
plain-string branch (an empty source string short-circuits to an empty
target) and the unsupported-field-type error. -/
def translateFieldString (e : Entity) (fieldName tgtLocale : String)
    (tr : String → Except Unit (String × Nat)) (v : FieldValue) : TFOut :=
  match v with
  | .str s =>
    if s == "" then ⟨e.SetFieldValue fieldName tgtLocale (.str ""), 0, none, []⟩
    else
      match tr s with
      | .error _ => ⟨e, 0, some .translationFailed, [s]⟩
      | .ok (res, b) => ⟨e.SetFieldValue fieldName tgtLocale (.str res), b, none, [s]⟩
  | _ => ⟨e, 0, some (.unsupportedFieldType fieldName), []⟩

/-- `TranslateField` (translate.go): nil source is a no-op; a rich-text
document has its leaves translated one call per leaf and reinjected by path;
otherwise fall through to the string branch. -/
def TranslateField (e : Entity) (fieldName srcLocale tgtLocale : String)
    (tr : String → Except Unit (String × Nat)) : TFOut :=
  match e.GetFieldValue fieldName srcLocale with
  | none => ⟨e, 0, none, []⟩
  | some v =>
    match parseRichTextV v with
    | .ok rt =>
      if rt.isDocument then
        if rt.extractText.isEmpty then
          ⟨e.SetFieldValue fieldName tgtLocale (.rich rt), 0, none, []⟩
        else
          match translateEach tr rt.extractText with
          | (translated, billed, calls, none) =>
            ⟨e.SetFieldValue fieldName tgtLocale (.rich (rt.replaceText translated)),
              billed, none, calls⟩
          | (_, billed, calls, some p) =>
            ⟨e, billed, some (.translationFailedAt p), calls⟩
      else translateFieldString e fieldName tgtLocale tr v
    | .error _ => translateFieldString e fieldName tgtLocale tr v

/-- `TranslateFieldIfEmpty` (translate.go): skip — zero billed characters, no
error, no translation calls, entity untouched — unless the target locale's
current value is nil or the empty string. -/
def TranslateFieldIfEmpty (e : Entity) (fieldName srcLocale tgtLocale : String)
    (tr : String → Except Unit (String × Nat)) : TFOut :=
  match e.GetFieldValue fieldName tgtLocale with
  | some tv =>
    match tv with
    | .str s =>
      if s == "" then TranslateField e fieldName srcLocale tgtLocale tr
      else ⟨e, 0, none, []⟩
    | _ => ⟨e, 0, none, []⟩
  | none => TranslateField e fieldName srcLocale tgtLocale tr

/-- Result of a `TranslateFieldBatch` call; `calls` lists the batches the
batch translation function was invoked on. -/
structure TFBOut where
  entity : Entity
  billed : Nat
  err : Option TErr
  calls : List (List String)

/-- The fall-through tail of `TranslateFieldBatch` (translate.go): the
plain-string branch wraps the single string in a one-element batch and
requires a one-element result. -/
def translateFieldBatchString (e : Entity) (fieldName tgtLocale : String)
    (trb : List String → Except Unit (List String × Nat)) (v : FieldValue) : TFBOut :=
  match v with
  | .str s =>
    if s == "" then ⟨e.SetFieldValue fieldName tgtLocale (.str ""), 0, none, []⟩
    else
      match trb [s] with
      | .error _ => ⟨e, 0, some .translationFailed, [[s]]⟩
      | .ok (results, b) =>
        if results.length != 1 then
          ⟨e, 0, some (.lengthMismatch results.length 1), [[s]]⟩
        else ⟨e.SetFieldValue fieldName tgtLocale (.str (results.headD "")), b, none, [[s]]⟩
  | _ => ⟨e, 0, some (.unsupportedFieldType fieldName), []⟩

/-- The `paths` slice of `TranslateFieldBatch` (translate.go): the keys of
the extracted text map in ascending `sort.Strings` order. The extracted keys
are pairwise distinct (`extractText_keys_nodup`), so sorting the key list of
the association list coincides with sorting the Go map's key set. -/
def sortedPaths (textsByPath : List (String × String)) : List String :=
  List.insertionSort (fun a b => strLe a b = true) (textsByPath.map Prod.fst)

/-- The `texts` slice of `TranslateFieldBatch`: `texts[i] =
textsByPath[paths[i]]`. -/
def sortedTexts (textsByPath : List (String × String)) : List String :=
  (sortedPaths textsByPath).map (fun p => (textsByPath.lookup p).getD "")

/-- `TranslateFieldBatch` (translate.go): extract the leaves, sort the paths,
dispatch a single batch call, fail hard on a result of the wrong length, and
otherwise zip the results back positionally and reinject by path. -/
def TranslateFieldBatch (e : Entity) (fieldName srcLocale tgtLocale : String)
    (trb : List String → Except Unit (List String × Nat)) : TFBOut :=
  match e.GetFieldValue fieldName srcLocale with
  | none => ⟨e, 0, none, []⟩
  | some v =>
    match parseRichTextV v with
    | .ok rt =>
      if rt.isDocument then
        if rt.extractText.isEmpty then
          ⟨e.SetFieldValue fieldName tgtLocale (.rich rt), 0, none, []⟩
        else
          match trb (sortedTexts rt.extractText) with
          | .error _ => ⟨e, 0, some .batchFailed, [sortedTexts rt.extractText]⟩
          | .ok (results, b) =>
            if results.length != (sortedTexts rt.extractText).length then
              ⟨e, 0, some (.lengthMismatch results.length (sortedTexts rt.extractText).length),
                [sortedTexts rt.extractText]⟩
            else
              ⟨e.SetFieldValue fieldName tgtLocale
                  (.rich (rt.replaceText ((sortedPaths rt.extractText).zip results))),
                b, none, [sortedTexts rt.extractText]⟩
      else translateFieldBatchString e fieldName tgtLocale trb v
    | .error _ => translateFieldBatchString e fieldName tgtLocale trb v

/-- C10: when the entity's field value at the source locale is nil — the
field is absent, the field's stored value is not a locale map, or the locale
is absent from the map — `TranslateField` and `TranslateFieldBatch` both
return zero billed characters and no error, never invoke the translation
function, and leave the entity (hence the target locale's value for the
field) unchanged. -/
theorem C10_nil_source (e : Entity) (fieldName srcLocale tgtLocale : String)
    (tr : String → Except Unit (String × Nat))
    (trb : List String → Except Unit (List String × Nat))
    (h : e.fields.lookup fieldName = none
      ∨ (∃ tag, e.fields.lookup fieldName = some (.nonMap tag))
      ∨ (∃ m, e.fields.lookup fieldName = some (.lmap m) ∧ m.lookup srcLocale = none)) :
    TranslateField e fieldName srcLocale tgtLocale tr = ⟨e, 0, none, []⟩
    ∧ TranslateFieldBatch e fieldName srcLocale tgtLocale trb = ⟨e, 0, none, []⟩ := by
  have hget : e.GetFieldValue fieldName srcLocale = none := by
    rcases h with h | ⟨tag, h⟩ | ⟨m, h1, h2⟩ <;> simp [Entity.GetFieldValue, *]
  constructor
  · simp [TranslateField, hget]
  · simp [TranslateFieldBatch, hget]

/-- Witness for `C10_nil_source`: an entity with no fields at all. -/
theorem C10_nil_source_witness :
    TranslateField ⟨[]⟩ "title" "de" "en" (fun s => .ok (s, s.length)) = ⟨⟨[]⟩, 0, none, []⟩
    ∧ TranslateFieldBatch ⟨[]⟩ "title" "de" "en" (fun ts => .ok (ts, 0))
      = ⟨⟨[]⟩, 0, none, []⟩ :=
  C10_nil_source ⟨[]⟩ "title" "de" "en" _ _ (Or.inl rfl)

/-- A concrete entity whose `"en"` value is present but not a string. -/
def c4Entity : Entity := ⟨[("title", .lmap [("de", .str "Hallo"), ("en", .other 0)])]⟩

/-- C4 counterexample: with a target value that is present but not a string
(an opaque non-string JSON value at locale `"en"`), the claim's "otherwise it
proceeds with translation exactly as TranslateField would" fails: the code
skips — zero calls — while `TranslateField` invokes the translation function
once. -/
theorem C4_counterexample :
    c4Entity.GetFieldValue "title" "en" = some (.other 0)
    ∧ (TranslateFieldIfEmpty c4Entity "title" "de" "en"
        (fun s => .ok (s ++ "!", s.length))).calls = []
    ∧ (TranslateField c4Entity "title" "de" "en"
        (fun s => .ok (s ++ "!", s.length))).calls = ["Hallo"] :=
  ⟨rfl, rfl, rfl⟩

/-- C4 amended: `TranslateFieldIfEmpty` proceeds exactly as `TranslateField`
when the target locale's current value is nil or the empty string, and is a
zero-cost no-op — zero billed characters, no error, no translation calls,
entity unchanged — whenever the target value is present and not the empty
string (this covers non-empty strings, as the claim states, but also every
non-string value). -/
theorem C4_translate_if_empty (e : Entity) (fieldName srcLocale tgtLocale : String)
    (tr : String → Except Unit (String × Nat)) :
    ((e.GetFieldValue fieldName tgtLocale = none
        ∨ e.GetFieldValue fieldName tgtLocale = some (.str "")) →
      TranslateFieldIfEmpty e fieldName srcLocale tgtLocale tr
        = TranslateField e fieldName srcLocale tgtLocale tr)
    ∧ (∀ v, e.GetFieldValue fieldName tgtLocale = some v →
        (∀ s, v = .str s → s ≠ "") →
        TranslateFieldIfEmpty e fieldName srcLocale tgtLocale tr = ⟨e, 0, none, []⟩) := by
  constructor
  · rintro (h | h) <;> simp [TranslateFieldIfEmpty, h]
  · rintro v hv hs
    cases v with
    | str s =>
      have hne : s ≠ "" := hs s rfl
      have hbeq : (s == "") = false := beq_eq_false_iff_ne.mpr hne
      simp [TranslateFieldIfEmpty, hv, hbeq]
    | rich n => simp [TranslateFieldIfEmpty, hv]
    | other t => simp [TranslateFieldIfEmpty, hv]

/-- Witness for `C4_translate_if_empty` at the test file's scenario: target
already holds `"English"`, so the call is a no-op. -/
theorem C4_translate_if_empty_witness :
    TranslateFieldIfEmpty
        ⟨[("title", .lmap [("de", .str "German"), ("en", .str "English")])]⟩
        "title" "de" "en" (fun s => .ok (s, s.length))
      = ⟨⟨[("title", .lmap [("de", .str "German"), ("en", .str "English")])]⟩, 0, none, []⟩ :=
  (C4_translate_if_empty _ "title" "de" "en" _).2 (.str "English") rfl
    (fun s h => by injection h with h2; subst h2; decide)

theorem lookup_zip_get (ks : List String) : ∀ (vs : List String), ks.Nodup →
    ∀ (i : Nat) (hi : i < ks.length) (hri : i < vs.length),
      (ks.zip vs).lookup (ks.get ⟨i, hi⟩) = some (vs.get ⟨i, hri⟩) := by
  induction ks with
  | nil => intro vs _ i hi; exact absurd hi (by simp)
  | cons k kt ih =>
    intro vs hnd i hi hri
    cases vs with
    | nil => exact absurd hri (by simp)
    | cons v vt =>
      cases i with
      | zero => simp [List.lookup]
      | succ n =>
        have hn : n < kt.length := by simpa using hi
        have hv : n < vt.length := by simpa using hri
        have hmem : kt.get ⟨n, hn⟩ ∈ kt := List.get_mem kt n hn
        have hne : (kt.get ⟨n, hn⟩ == k) = false := by
          rw [beq_eq_false_iff_ne]
          intro hc
          exact (List.nodup_cons.mp hnd).1 (hc ▸ hmem)
        show List.lookup (kt.get ⟨n, hn⟩) ((k, v) :: kt.zip vt) = _
        simp only [List.lookup, hne]
        exact ih vt (List.nodup_cons.mp hnd).2 n hn hv

/-- C5: on a rich-text field with at least one text leaf,
`TranslateFieldBatch` invokes the batch translation function exactly once,
on the leaf texts listed by ascending lexicographic path order (the
dispatched path list is sorted under Go's string order and is a permutation
of the extracted keys); a result list of the wrong length yields an error
with no write to the target locale (the entity is unchanged), as does a
failing batch call; on success the tree stored at the target locale is the
source tree with the map `{i-th sorted path ↦ i-th result}` substituted in,
and that map sends the i-th sorted path exactly to the i-th returned
text. -/
theorem C5_batch_order (e : Entity) (fieldName srcLocale tgtLocale : String)
    (trb : List String → Except Unit (List String × Nat))
    (v : FieldValue) (rt : RichTextNode)
    (hv : e.GetFieldValue fieldName srcLocale = some v)
    (hp : parseRichTextV v = .ok rt)
    (hdoc : rt.isDocument = true)
    (hne : rt.extractText ≠ []) :
    (TranslateFieldBatch e fieldName srcLocale tgtLocale trb).calls
        = [sortedTexts rt.extractText]
    ∧ List.Sorted (fun a b => strLe a b = true) (sortedPaths rt.extractText)
    ∧ List.Perm (sortedPaths rt.extractText) (rt.extractText.map Prod.fst)
    ∧ (trb (sortedTexts rt.extractText) = .error () →
        TranslateFieldBatch e fieldName srcLocale tgtLocale trb
          = ⟨e, 0, some .batchFailed, [sortedTexts rt.extractText]⟩)
    ∧ (∀ results b, trb (sortedTexts rt.extractText) = .ok (results, b) →
        results.length ≠ (sortedTexts rt.extractText).length →
        TranslateFieldBatch e fieldName srcLocale tgtLocale trb
          = ⟨e, 0, some (.lengthMismatch results.length (sortedTexts rt.extractText).length),
              [sortedTexts rt.extractText]⟩)
    ∧ (∀ results b, trb (sortedTexts rt.extractText) = .ok (results, b) →
        results.length = (sortedTexts rt.extractText).length →
        TranslateFieldBatch e fieldName srcLocale tgtLocale trb
          = ⟨e.SetFieldValue fieldName tgtLocale
              (.rich (rt.replaceText ((sortedPaths rt.extractText).zip results))),
            b, none, [sortedTexts rt.extractText]⟩
        ∧ ∀ (i : Nat) (hi : i < (sortedPaths rt.extractText).length)
            (hri : i < results.length),
            ((sortedPaths rt.extractText).zip results).lookup
                ((sortedPaths rt.extractText).get ⟨i, hi⟩)
              = some (results.get ⟨i, hri⟩)) := by
  have hnodup : (sortedPaths rt.extractText).Nodup :=
    ((List.perm_insertionSort _ _).nodup_iff).mpr
      (extractText_keys_nodup rt "000")
  have hie : rt.extractText.isEmpty = false := by
    cases hs : rt.extractText with
    | nil => exact absurd hs hne
    | cons a t => rfl
  refine ⟨?_, ?_, ?_, ?_, ?_, ?_⟩
  · cases htr : trb (sortedTexts rt.extractText) with
    | error u =>
      simp [TranslateFieldBatch, hv, hp, hdoc, hie, htr]
    | ok rb =>
      rcases rb with ⟨results, b⟩
      by_cases hlen : results.length = (sortedTexts rt.extractText).length
      · have : (results.length != (sortedTexts rt.extractText).length) = false := by
          simp [hlen]
        simp [TranslateFieldBatch, hv, hp, hdoc, hie, htr, this]
      · have : (results.length != (sortedTexts rt.extractText).length) = true := by
          simpa using hlen
        simp [TranslateFieldBatch, hv, hp, hdoc, hie, htr, this]
  · exact @List.sorted_insertionSort String (fun a b => strLe a b = true) _
      ⟨strLe_total⟩ ⟨fun a b c => strLe_trans⟩ _
  · exact List.perm_insertionSort _ _
  · intro htr
    simp [TranslateFieldBatch, hv, hp, hdoc, hie, htr]
  · intro results b htr hlen
    have : (results.length != (sortedTexts rt.extractText).length) = true := by
      simpa using hlen
    simp [TranslateFieldBatch, hv, hp, hdoc, hie, htr, this]
  · intro results b htr hlen
    have hbne : (results.length != (sortedTexts rt.extractText).length) = false := by
      simp [hlen]
    constructor
    · simp [TranslateFieldBatch, hv, hp, hdoc, hie, htr, hbne]
    · intro i hi hri
      exact lookup_zip_get (sortedPaths rt.extractText) results hnodup i hi hri

/-- A concrete two-leaf document (the batch test's fixture). -/
def c5Doc : RichTextNode :=
  .mk "document" "" [] []
    [.mk "paragraph" "" [] []
      [.mk "text" "First" [] [] [], .mk "text" "Second" [] [] []]]

/-- Witness for `C5_batch_order`: on the concrete two-leaf document the batch
function is called exactly once with the sorted leaf texts. -/
theorem C5_batch_order_witness :
    (TranslateFieldBatch ⟨[("description", .lmap [("de", .rich c5Doc)])]⟩
        "description" "de" "en" (fun ts => .ok (ts, 0))).calls
      = [sortedTexts c5Doc.extractText] :=
  (C5_batch_order ⟨[("description", .lmap [("de", .rich c5Doc)])]⟩
    "description" "de" "en" (fun ts => .ok (ts, 0)) (.rich c5Doc) c5Doc
    rfl rfl rfl (by decide)).1

/-! ### Hyperlink URI rewriting (`ProcessHyperlinks`) -/

/-- Errors of `ProcessHyperlinks`, one constructor per `fmt.Errorf` site. -/
inductive PHErr where
  | parseFailed (fieldName : String)
  | notDocument (fieldName : String)
  | resolverFailed (uri : String)
deriving Repr, DecidableEq

/-- The visitor closure of `ProcessHyperlinks` applied to one hyperlink
node's data: read the URI via `getHyperlinkURI` (empty when absent or not a
string), skip empty URIs, call the resolver, and on a changed URI write it
back via `setHyperlinkURI` and flag the modification. Non-hyperlink node
types are not visited (`walkHyperlinks`). Returns (new data, modified,
resolver calls, error). -/
def phVisitData (resolver : String → Except Unit String) (nt : String)
    (d : List (String × DataVal)) :
    List (String × DataVal) × Bool × List String × Option PHErr :=
  if nt == nodeTypeHyperlink || nt == nodeTypeEntryHyperlink ||
      nt == nodeTypeAssetHyperlink then
    match d.lookup "uri" with
    | some (.str uri) =>
      if uri == "" then (d, false, [], none)
      else
        match resolver uri with
        | .error _ => (d, false, [uri], some (.resolverFailed uri))
        | .ok newUri =>
          if newUri != uri then (listSet d "uri" (.str newUri), true, [uri], none)
          else (d, false, [uri], none)
    | _ => (d, false, [], none)
  else (d, false, [], none)

mutual

/-- `walkHyperlinks` (richtext_internal.go) with the `ProcessHyperlinks`
visitor: visit the node itself, then its children in order, stopping at the
first visitor error. Returns the rewritten node, the modified flag, the
resolver invocations in order, and the first error. -/
def phWalk (resolver : String → Except Unit String) :
    RichTextNode → RichTextNode × Bool × List String × Option PHErr
  | .mk nt v d mk c =>
    match phVisitData resolver nt d with
    | (d', m, calls, some err) => (.mk nt v d' mk c, m, calls, some err)
    | (d', m, calls, none) =>
      let cw := phWalkChildren resolver c
      (.mk nt v d' mk cw.1, m || cw.2.1, calls ++ cw.2.2.1, cw.2.2.2)

def phWalkChildren (resolver : String → Except Unit String) :
    List RichTextNode → List RichTextNode × Bool × List String × Option PHErr
  | [] => ([], false, [], none)
  | c :: rest =>
    match phWalk resolver c with
    | (c', m, calls, some err) => (c' :: rest, m, calls, some err)
    | (c', m, calls, none) =>
      let wr := phWalkChildren resolver rest
      (c' :: wr.1, m || wr.2.1, calls ++ wr.2.2.1, wr.2.2.2)

end

/-- Result of a `ProcessHyperlinks` call: the entity after the call, the
returned error, and the URIs the resolver was invoked on, in order. -/
structure PHOut where
  entity : Entity
  err : Option PHErr
  calls : List String

/-- `ProcessHyperlinks` (hyperlink-processing source file): nil field value
is a no-op; a value that does not parse, or parses to a non-document, is an
error; otherwise walk all hyperlinks with the resolver and write the field
back only if some URI actually changed. -/
def ProcessHyperlinks (e : Entity) (fieldName locale : String)
    (resolver : String → Except Unit String) : PHOut :=
  match e.GetFieldValue fieldName locale with
  | none => ⟨e, none, []⟩
  | some v =>
    match parseRichTextV v with
    | .error _ => ⟨e, some (.parseFailed fieldName), []⟩
    | .ok rt =>
      if !rt.isDocument then ⟨e, some (.notDocument fieldName), []⟩
      else
        match phWalk resolver rt with
        | (_, _, calls, some err) => ⟨e, some err, calls⟩
        | (rt', modified, calls, none) =>
          if modified then ⟨e.SetFieldValue fieldName locale (.rich rt'), none, calls⟩
          else ⟨e, none, calls⟩

mutual

/-- Observation: the non-empty URIs of all hyperlink-flavored nodes of a
tree, in pre-order — exactly the URIs `ProcessHyperlinks` hands to the
resolver. -/
def hyperlinkURIs : RichTextNode → List String
  | .mk nt _ d _ c =>
    (if nt == nodeTypeHyperlink || nt == nodeTypeEntryHyperlink ||
        nt == nodeTypeAssetHyperlink then
      match d.lookup "uri" with
      | some (.str uri) => if uri == "" then [] else [uri]
      | _ => []
    else []) ++ hyperlinkURIsChildren c

def hyperlinkURIsChildren : List RichTextNode → List String
  | [] => []
  | c :: rest => hyperlinkURIs c ++ hyperlinkURIsChildren rest

end

mutual

/-- Observation: the number of hyperlink-flavored nodes of a tree
(regardless of their URIs). -/
def countHyperlinks : RichTextNode → Nat
  | .mk nt _ _ _ c =>
    (if nt == nodeTypeHyperlink || nt == nodeTypeEntryHyperlink ||
        nt == nodeTypeAssetHyperlink then 1 else 0) + countHyperlinksChildren c

def countHyperlinksChildren : List RichTextNode → Nat
  | [] => 0
  | c :: rest => countHyperlinks c + countHyperlinksChildren rest

end

/-- Whether the resolver rewrites `u`: it returns a URI different from its
input (a failing resolver is irrelevant where this is used). -/
def changedB (resolver : String → Except Unit String) (u : String) : Bool :=
  match resolver u with
  | .ok r => r != u
  | .error _ => true

theorem phWalkChildren_ok (resolver : String → Except Unit String)
    (cs : List RichTextNode)
    (H : ∀ x ∈ cs,
      (phWalk resolver x).2.2.2 = none
      ∧ (phWalk resolver x).2.2.1 = hyperlinkURIs x
      ∧ (phWalk resolver x).2.1 = (hyperlinkURIs x).any (changedB resolver)) :
    (phWalkChildren resolver cs).2.2.2 = none
    ∧ (phWalkChildren resolver cs).2.2.1 = hyperlinkURIsChildren cs
    ∧ (phWalkChildren resolver cs).2.1
        = (hyperlinkURIsChildren cs).any (changedB resolver) := by
  induction cs with
  | nil => exact ⟨rfl, rfl, rfl⟩
  | cons c rest ih =>
    obtain ⟨h1, h2, h3⟩ := H c (List.mem_cons_self c rest)
    obtain ⟨g1, g2, g3⟩ := ih (fun x hx => H x (List.mem_cons_of_mem c hx))
    rcases hw : phWalk resolver c with ⟨c', m, calls, err⟩
    rw [hw] at h1 h2 h3
    simp only at h1 h2 h3
    subst h1
    simp [phWalkChildren, hw, h2, h3, g1, g2, g3, hyperlinkURIsChildren,
      List.any_append]

theorem phWalk_ok (resolver : String → Except Unit String)
    (hres : ∀ u, ∃ r, resolver u = .ok r) (n : RichTextNode) :
    (phWalk resolver n).2.2.2 = none
    ∧ (phWalk resolver n).2.2.1 = hyperlinkURIs n
    ∧ (phWalk resolver n).2.1 = (hyperlinkURIs n).any (changedB resolver) := by
  induction n using RichTextNode.structuralInd with
  | step nt v d mk c ih =>
    obtain ⟨g1, g2, g3⟩ := phWalkChildren_ok resolver c ih
    by_cases hh : (nt == nodeTypeHyperlink || nt == nodeTypeEntryHyperlink ||
        nt == nodeTypeAssetHyperlink) = true
    · cases hlu : d.lookup "uri" with
      | none =>
        simp [phWalk, phVisitData, hyperlinkURIs, hh, hlu, g1, g2, g3]
      | some dv =>
        cases dv with
        | other t =>
          simp [phWalk, phVisitData, hyperlinkURIs, hh, hlu, g1, g2, g3]
        | str uri =>
          by_cases hu : (uri == "") = true
          · simp [phWalk, phVisitData, hyperlinkURIs, hh, hlu, hu, g1, g2, g3]
          · obtain ⟨r, hr⟩ := hres uri
            have hbne : (uri == "") = false := by simpa using hu
            by_cases hcv : (r != uri) = true
            · simp [phWalk, phVisitData, hyperlinkURIs, changedB, hh, hlu, hbne,
                hr, hcv, g1, g2, g3]
            · have hcf : (r != uri) = false := by simpa using hcv
              simp [phWalk, phVisitData, hyperlinkURIs, changedB, hh, hlu, hbne,
                hr, hcf, g1, g2, g3]
    · have hhf : (nt == nodeTypeHyperlink || nt == nodeTypeEntryHyperlink ||
          nt == nodeTypeAssetHyperlink) = false := by simpa using hh
      simp [phWalk, phVisitData, hyperlinkURIs, hhf, g1, g2, g3]

/-- A concrete document with a single hyperlink node carrying no URI. -/
def c6Doc : RichTextNode :=
  .mk "document" "" [] [] [.mk "hyperlink" "" [] [] []]

/-- A concrete entity holding `c6Doc` as a rich-text field. -/
def c6Entity : Entity := ⟨[("content", .lmap [("de", .rich c6Doc)])]⟩

/-- C6 counterexample: on a document with exactly one hyperlink node whose
data has no URI, the claim says the resolver is applied to every hyperlink
node, but the code skips hyperlinks with an empty (or missing) URI: the
resolver — here one that rewrites every URI it is given — is invoked zero
times and nothing is written back. -/
theorem C6_counterexample :
    countHyperlinks c6Doc = 1
    ∧ (ProcessHyperlinks c6Entity "content" "de" (fun u => .ok (u ++ "x"))).calls = []
    ∧ (ProcessHyperlinks c6Entity "content" "de" (fun u => .ok (u ++ "x"))).entity
        = c6Entity :=
  ⟨rfl, rfl, rfl⟩

/-- C6 amended: a nil field value is a no-op; a present value that does not
parse as a rich-text document (parse failure or non-document root) yields an
error with the entity unchanged; on a document, the resolver is applied to
exactly the hyperlink, entry-hyperlink and asset-hyperlink nodes whose URI
is a non-empty string, in document order, and (for a resolver that does not
fail) the rewritten document is written back to the field if and only if at
least one resolver call returned a URI different from its input. -/
theorem C6_process_hyperlinks (e : Entity) (fieldName locale : String)
    (resolver : String → Except Unit String) :
    (e.GetFieldValue fieldName locale = none →
      ProcessHyperlinks e fieldName locale resolver = ⟨e, none, []⟩)
    ∧ (∀ v, e.GetFieldValue fieldName locale = some v →
        (∀ rt, parseRichTextV v = .ok rt → rt.isDocument = false) →
        (ProcessHyperlinks e fieldName locale resolver).err ≠ none
        ∧ (ProcessHyperlinks e fieldName locale resolver).entity = e)
    ∧ (∀ v rt, e.GetFieldValue fieldName locale = some v →
        parseRichTextV v = .ok rt → rt.isDocument = true →
        (∀ u, ∃ r, resolver u = .ok r) →
        (ProcessHyperlinks e fieldName locale resolver).err = none
        ∧ (ProcessHyperlinks e fieldName locale resolver).calls = hyperlinkURIs rt
        ∧ (ProcessHyperlinks e fieldName locale resolver).entity
            = (if (hyperlinkURIs rt).any (changedB resolver) then
                e.SetFieldValue fieldName locale (.rich (phWalk resolver rt).1)
              else e)) := by
  refine ⟨?_, ?_, ?_⟩
  · intro h
    simp [ProcessHyperlinks, h]
  · intro v hv hnd
    cases hp : parseRichTextV v with
    | error u =>
      constructor
      · simp [ProcessHyperlinks, hv, hp]
      · simp [ProcessHyperlinks, hv, hp]
    | ok rt =>
      have hd : rt.isDocument = false := hnd rt hp
      constructor
      · simp [ProcessHyperlinks, hv, hp, hd]
      · simp [ProcessHyperlinks, hv, hp, hd]
  · intro v rt hv hp hdoc hres
    obtain ⟨w1, w2, w3⟩ := phWalk_ok resolver hres rt
    rcases hw : phWalk resolver rt with ⟨rt', m, calls, err⟩
    rw [hw] at w1 w2 w3
    simp only at w1 w2 w3
    subst w1
    refine ⟨?_, ?_, ?_⟩
    · cases m <;> simp [ProcessHyperlinks, hv, hp, hdoc, hw]
    · cases m <;> simp [ProcessHyperlinks, hv, hp, hdoc, hw, w2]
    · rw [← w3]
      cases m with
      | true => simp [ProcessHyperlinks, hv, hp, hdoc, hw]
      | false => simp [ProcessHyperlinks, hv, hp, hdoc, hw]

/-- A concrete document with two hyperlink nodes with URIs (the
multiple-links test fixture). -/
def c6Doc2 : RichTextNode :=
  .mk "document" "" [] []
    [.mk "paragraph" "" [] []
      [.mk "hyperlink" "" [("uri", .str "/de/link1")] []
          [.mk "text" "Link 1" [] [] []],
       .mk "hyperlink" "" [("uri", .str "/de/link2")] []
          [.mk "text" "Link 2" [] [] []]]]

/-- Witness for `C6_process_hyperlinks`: on the two-link document the
resolver is invoked exactly on the two URIs, in order. -/
theorem C6_process_hyperlinks_witness :
    (ProcessHyperlinks ⟨[("content", .lmap [("de", .rich c6Doc2)])]⟩ "content" "de"
        (fun u => .ok (u ++ "!"))).calls = hyperlinkURIs c6Doc2 :=
  ((C6_process_hyperlinks ⟨[("content", .lmap [("de", .rich c6Doc2)])]⟩ "content" "de"
      (fun u => .ok (u ++ "!"))).2.2 (.rich c6Doc2) c6Doc2 rfl rfl rfl
    (fun u => ⟨u ++ "!", rfl⟩)).2.1

/-! ### Entity collections (collection.go) -/

/-- `EntityCollection` (types.go): the entity slice plus the accumulated
filter predicates that produced it. -/
structure EntityCollection where
  entities : List Entity
  filters : List (Entity → Bool)

/-- `NewEntityCollection` (collection.go). -/
def NewEntityCollection (entities : List Entity) : EntityCollection :=
  ⟨entities, []⟩

/-- `EntityCollection.Filter` (collection.go): keep exactly the entities
every supplied predicate accepts (evaluated left to right with early exit,
preserving order), appending the predicates to the collection's filter list;
a new collection is returned and the receiver is only read. -/
def EntityCollection.Filter (ec : EntityCollection) (fs : List (Entity → Bool)) :
    EntityCollection :=
  ⟨ec.entities.filter (fun ent => fs.all (fun p => p ent)), ec.filters ++ fs⟩

/-- C7: filtering by two predicates at once produces the same entity
sequence as filtering by the first and then the second; an entity is
retained exactly when every predicate accepts it; and the result is a
subsequence of the original collection's entity sequence, which the pure
`Filter` leaves untouched. -/
theorem C7_filter_compose (ec : EntityCollection) (a b : Entity → Bool) :
    (ec.Filter [a, b]).entities = ((ec.Filter [a]).Filter [b]).entities
    ∧ (∀ ent, ent ∈ (ec.Filter [a, b]).entities ↔
        ent ∈ ec.entities ∧ a ent = true ∧ b ent = true)
    ∧ (ec.Filter [a, b]).entities.Sublist ec.entities := by
  refine ⟨?_, ?_, ?_⟩
  · show ec.entities.filter _ = (ec.entities.filter _).filter _
    rw [List.filter_filter]
    apply List.filter_congr
    intro ent _
    simp [Bool.and_comm]
  · intro ent
    show ent ∈ ec.entities.filter _ ↔ _
    rw [List.mem_filter]
    simp
  · exact List.filter_sublist _

/-! ### Entry loading with shrink-and-retry (loader.go) -/

/-- One backend response to a `collection.Next()` page fetch, as a function
of the current page size and page index: a page of (opaque) items, a
`contentful.ErrorResponse` carrying its message, or an error of any other
type. -/
inductive FetchResult where
  | ok (items : List Nat)
  | errResponse (msg : String)
  | errOther (tag : Nat)

/-- The loader's error result: `errors.New(msg)` for an
`ErrorResponse`, or the original error unchanged otherwise. -/
inductive LoadErr where
  | fromResponse (msg : String)
  | other (tag : Nat)
deriving Repr, DecidableEq

/-- `pat` occurs at the start of `s`. -/
def hasPre : List Char → List Char → Bool
  | [], _ => true
  | _ :: _, [] => false
  | p :: ps, c :: cs => p == c && hasPre ps cs

/-- `pat` occurs somewhere in `s`. -/
def hasSub (pat : List Char) (s : List Char) : Bool :=
  match s with
  | [] => pat.isEmpty
  | _ :: cs => hasPre pat s || hasSub pat cs

/-- `strings.Contains(s, pat)`; for the ASCII needles the loader uses, Go's
byte-wise containment coincides with this character-wise one. -/
def strContains (s pat : String) : Bool := hasSub pat.data s.data

/-- The retry condition of `loadEntries` (loader.go): the `ErrorResponse`
message contains "Response size too big" or "Too many links", and the page
size is still at least 20. -/
def shouldShrink (msg : String) (limit : Nat) : Bool :=
  (strContains msg "Response size too big" || strContains msg "Too many links")
    && decide (20 ≤ limit)

/-- The page loop of `loadEntries` (loader.go): fetch pages accumulating all
items until a page shorter than the limit; on an `ErrorResponse` satisfying
`shouldShrink`, restart the entire load — page 0, empty accumulator — at
half the page size; return every other error. `fuel` bounds the number of
additional page fetches in one attempt (the Go loop is unbounded; fuel
exhaustion, a modeling artifact, returns the items collected so far) and a
retry restarts with fresh fuel `fuel0`. -/
def loadEntriesLoop (backend : Nat → Nat → FetchResult) (fuel0 : Nat) :
    Nat → Nat → Nat → List Nat → Except LoadErr (List Nat)
  | limit, fuel, page, acc =>
    match backend limit page with
    | .errResponse msg =>
      if h : shouldShrink msg limit = true then
        loadEntriesLoop backend fuel0 (limit / 2) fuel0 0 []
      else .error (.fromResponse msg)
    | .errOther t => .error (.other t)
    | .ok items =>
      if items.length < limit then .ok (acc ++ items)
      else
        match fuel with
        | 0 => .ok (acc ++ items)
        | fuel' + 1 => loadEntriesLoop backend fuel0 limit fuel' (page + 1) (acc ++ items)
termination_by limit fuel _p _a => (limit, fuel)
decreasing_by
  · have h20 : 20 ≤ limit := by
      have hand := (Bool.and_eq_true _ _).mp h
      exact of_decide_eq_true hand.2
    exact Prod.Lex.left _ _ (Nat.div_lt_self (by omega) (by omega))
  · exact Prod.Lex.right _ (by omega)

/-- `MigrationClient.loadEntries` (loader.go): a zero page-size argument
defaults to 512; the load starts at page 0 with an empty accumulator. -/
def loadEntries (backend : Nat → Nat → FetchResult) (fuel limit : Nat) :
    Except LoadErr (List Nat) :=
  loadEntriesLoop backend fuel (if limit == 0 then 512 else limit) fuel 0 []

/-- C8: when a page fetch fails as an `ErrorResponse` whose message contains
"Response size too big" or "Too many links" while the page size is at least
the fixed minimum of 20, the loader retries the entire entry load from
scratch at half the page size instead of failing; when that condition does
not hold (message matching neither string, or page size below the minimum)
the `ErrorResponse` is propagated as an error without retry, as is an error
of any other type; and the retry condition is always false below the
minimum page size. -/
theorem C8_shrink_retry (backend : Nat → Nat → FetchResult) (fuel0 limit fuel page : Nat)
    (acc : List Nat) (msg : String) (t : Nat) :
    (backend limit page = .errResponse msg → shouldShrink msg limit = true →
      loadEntriesLoop backend fuel0 limit fuel page acc
        = loadEntriesLoop backend fuel0 (limit / 2) fuel0 0 [])
    ∧ (backend limit page = .errResponse msg → shouldShrink msg limit = false →
      loadEntriesLoop backend fuel0 limit fuel page acc = .error (.fromResponse msg))
    ∧ (backend limit page = .errOther t →
      loadEntriesLoop backend fuel0 limit fuel page acc = .error (.other t))
    ∧ (limit < 20 → shouldShrink msg limit = false) := by
  refine ⟨?_, ?_, ?_, ?_⟩
  · intro hb hs
    rw [loadEntriesLoop, hb]
    simp [hs]
  · intro hb hs
    rw [loadEntriesLoop, hb]
    simp [hs]
  · intro hb
    rw [loadEntriesLoop, hb]
  · intro hlt
    have : (decide (20 ≤ limit)) = false := by simp; omega
    simp [shouldShrink, this]

/-- Witness for `C8_shrink_retry`: a backend whose first fetch at page size
512 fails with "Response size too big" makes the loader restart at 256. -/
theorem C8_shrink_retry_witness :
    loadEntriesLoop
        (fun l _ => if l == 512 then .errResponse "Response size too big" else .ok [])
        3 512 3 0 []
      = loadEntriesLoop
          (fun l _ => if l == 512 then .errResponse "Response size too big" else .ok [])
          3 256 3 0 [] :=
  (C8_shrink_retry
    (fun l _ => if l == 512 then .errResponse "Response size too big" else .ok [])
    3 512 3 0 [] "Response size too big" 0).1 rfl rfl

/-! ### Migration executor update semantics (executor.go) -/

/-- The remote responses available to one `updateEntity` run, for a
supported entity type: the upsert call, the cache refresh after it, the
publish call, and the cache refresh after that (`none` is success). The
unsupported-entity-type arm of `upsertEntity` returns an error before any
publish and is covered by the failing-upsert case. -/
structure ExecBackend where
  upsertErr : Option Nat
  refreshAfterUpsertErr : Option Nat
  publishErr : Option Nat
  refreshAfterPublishErr : Option Nat

/-- `MigrationExecutor.upsertEntity` (executor.go): dispatch the remote
upsert; on success refresh the cached entity; the success flag is
`err == nil`. -/
def upsertEntity (b : ExecBackend) : Bool × Option Nat :=
  match b.upsertErr with
  | some err => (false, some err)
  | none => (b.refreshAfterUpsertErr.isNone, b.refreshAfterUpsertErr)

/-- `MigrationExecutor.publishEntity` (executor.go): dispatch the remote
publish; on success refresh the cached entity. -/
def publishEntity (b : ExecBackend) : Bool × Option Nat :=
  match b.publishErr with
  | some err => (false, some err)
  | none => (b.refreshAfterPublishErr.isNone, b.refreshAfterPublishErr)

/-- `MigrationExecutor.updateEntity` (executor.go): read the entity's
`IsPublished()` first, upsert, and on a successful upsert publish only if
the entity was published before; a failed upsert returns its error
directly. The second component records whether a publish was dispatched. -/
def updateEntity (sys : Sys) (b : ExecBackend) : (Bool × Option Nat) × Bool :=
  match upsertEntity b with
  | (_, some e) => ((false, some e), false)
  | (success, none) =>
    if success then
      if sys.IsPublished then (publishEntity b, true)
      else ((true, none), false)
    else ((true, none), false)

/-- C9: the executor's update dispatches a publish if and only if the upsert
(including its cache refresh) succeeded and the entity's `IsPublished()` was
true before the upsert; an entity that was a draft is never published as a
side effect of updating it; and a failed upsert returns the upsert's error
with no publish attempted. -/
theorem C9_update_preserves_status (sys : Sys) (b : ExecBackend) :
    (updateEntity sys b).2 = ((upsertEntity b).2.isNone && sys.IsPublished)
    ∧ (sys.IsPublished = false → (updateEntity sys b).2 = false)
    ∧ (∀ err, (upsertEntity b).2 = some err →
        updateEntity sys b = ((false, some err), false)) := by
  refine ⟨?_, ?_, ?_⟩
  · rcases hb : b.upsertErr with _ | e
    · rcases hr : b.refreshAfterUpsertErr with _ | e2
      · cases hp : sys.IsPublished <;>
          simp [updateEntity, upsertEntity, hb, hr, hp]
      · simp [updateEntity, upsertEntity, hb, hr]
    · simp [updateEntity, upsertEntity, hb]
  · intro hp
    rcases hb : b.upsertErr with _ | e
    · rcases hr : b.refreshAfterUpsertErr with _ | e2 <;>
        simp [updateEntity, upsertEntity, hb, hr, hp]
    · simp [updateEntity, upsertEntity, hb]
  · intro err herr
    rcases hb : b.upsertErr with _ | e
    · rcases hr : b.refreshAfterUpsertErr with _ | e2
      · rw [upsertEntity, hb] at herr
        simp [hr] at herr
      · rw [upsertEntity, hb] at herr
        simp only [hr] at herr
        cases herr
        simp [updateEntity, upsertEntity, hb, hr]
    · rw [upsertEntity, hb] at herr
      simp only [] at herr
      cases herr
      simp [updateEntity, upsertEntity, hb]

/-- Witness for `C9_update_preserves_status`: a failing upsert makes the
update return the upsert error and dispatch no publish. -/
theorem C9_update_preserves_status_witness :
    updateEntity ⟨2, 1⟩ ⟨some 7, none, none, none⟩ = ((false, some 7), false) :=
  (C9_update_preserves_status ⟨2, 1⟩ ⟨some 7, none, none, none⟩).2.2 7 rfl

end CFC
